import Mathlib

/-!
Shallow embedding of `buffs.py`, a scraper that enumerates item-detail URLs
from a paginated catalog API, fetches each detail page under a shared
concurrency limiter with unbounded retry, normalizes each item payload into a
(normal-quality, high-quality) record pair, sorts the harvested records
descending by (ilvl, English name, hq), and merges per-language name-override
tables into each record.

Modelling conventions:
* The `asyncio.Semaphore` is a transition system (`SemSt`, `SemStep`,
  `SemReach`): `acquire` needs a free permit and registers the task as a
  holder, `release` removes it.  Capacity `N` is the initial permit count.
* Network and parse outcomes are oracles: attempt `k` of a fetch either
  raises (`none`) or yields a parsed payload (`some d`).  The `while True`
  retry loops are given explicit fuel; returning `none` means the loop has
  not terminated within that much fuel.
* Python dicts of strings are association lists with insertion-order update
  (`dictSet`/`dictGet`); the item name dict, which always carries the four
  base languages, is the structure `Names`.
* Python's `x or y` on an optional string is `pyOrStr` (a present-but-empty
  string is falsy and falls back to `y`).
* `list.sort(key=..., reverse=True)` is `List.mergeSort` with the comparison
  "key of the left element is ≥ key of the right element", the key being the
  lexicographic triple (ilvl, English name as a code-point list, hq).
-/

namespace Buffs

/-! ### Concurrency limiter (asyncio.Semaphore, `FETCH_SEMAPHORE`) -/

/-- State of the semaphore: free permits and the tasks currently holding
a permit (inside an `async with FETCH_SEMAPHORE` block). -/
structure SemSt where
  avail : Nat
  holders : List Nat
deriving DecidableEq, Repr

/-- One transition of the semaphore: a task may acquire a permit only when
one is available, and may release only a permit it holds.  `async with`
guarantees every holder eventually releases exactly once, on every exit
path. -/
inductive SemStep : SemSt → SemSt → Prop
  | acquire (s : SemSt) (t : Nat) (ha : 0 < s.avail) (ht : t ∉ s.holders) :
      SemStep s ⟨s.avail - 1, t :: s.holders⟩
  | release (s : SemSt) (t : Nat) (ht : t ∈ s.holders) :
      SemStep s ⟨s.avail + 1, s.holders.erase t⟩

/-- States reachable from the initial semaphore of capacity `N`
(`asyncio.Semaphore(int(args.concurrency))`). -/
inductive SemReach (N : Nat) : SemSt → Prop
  | init : SemReach N ⟨N, []⟩
  | step {s s2 : SemSt} : SemReach N s → SemStep s s2 → SemReach N s2

/-! ### Resilient fetcher (`fetch_page`, and the identical retry loop of
`fetch_item_links_page`) -/

/-- The retry loop of `fetch_page`: attempt `k` acquires the semaphore,
issues the GET and parses; `tryFetch k = none` means that attempt raised
somewhere between the network call and the parse, `some d` that it parsed
`d`.  The result pairs the loop's outcome (given `fuel` iterations) with the
trace of available-permit counts observed after each attempt finished,
starting from `avail` free permits: the `async with` block releases the
permit on the success path and on the exception path alike. -/
def fetch_page_run {α : Type} (tryFetch : Nat → Option α) (avail : Nat) :
    Nat → Nat → Option α × List Nat
  | 0, _ => (none, [])
  | fuel + 1, k =>
      let availHeld := avail - 1
      let availAfter := availHeld + 1
      match tryFetch k with
      | some d => (some d, [availAfter])
      | none =>
          let rest := fetch_page_run tryFetch avail fuel (k + 1)
          (rest.1, availAfter :: rest.2)

/-! ### Paginated enumerator (`fetch_item_urls`) -/

/-- One parsed listing page: the detail URLs of this page
(`data['items']['results'][*]['url_api']`) and the reported total page count
(`data['items']['paging']['total']`). -/
structure ListingPage where
  urls : List String
  total : Nat
deriving DecidableEq, Repr

/-- The page loop of `fetch_item_urls`: fetch the current page, append its
URLs, continue with the next page while `page < total`, else stop.  `oracle`
gives the (eventually successfully parsed) listing page for each page
number; `fuel` bounds the number of pages visited, `none` meaning the loop
did not finish within the fuel. -/
def fetchItemUrlsAux (oracle : Nat → ListingPage) : Nat → Nat → Option (List String)
  | 0, _ => none
  | fuel + 1, page =>
      let pg := oracle page
      if page < pg.total then
        match fetchItemUrlsAux oracle fuel (page + 1) with
        | some rest => some (pg.urls ++ rest)
        | none => none
      else
        some pg.urls

/-- The function `fetch_item_urls`: the page loop started at page 1. -/
def fetch_item_urls (oracle : Nat → ListingPage) (fuel : Nat) : Option (List String) :=
  fetchItemUrlsAux oracle fuel 1

/-! ### Item payloads and records -/

/-- One entry of `attributes_params` in a detail payload. -/
structure Attribute where
  id : Nat
  value : Int
  percent : Int
  value_hq : Int
  percent_hq : Int
deriving DecidableEq, Repr

/-- A detail-page payload, restricted to the fields `fetch_item` reads. -/
structure ItemPayload where
  name_en : String
  name_fr : String
  name_de : String
  name_ja : String
  level_item : Nat
  attributes_params : List Attribute
deriving DecidableEq, Repr

/-- Lookup in a Python dict of strings (association list, first match). -/
def dictGet : List (String × String) → String → Option String
  | [], _ => none
  | (k2, v) :: rest, k => if k2 = k then some v else dictGet rest k

/-- Assignment `d[k] = v` in a Python dict of strings: update in place if
the key exists, else append. -/
def dictSet : List (String × String) → String → String → List (String × String)
  | [], k, v => [(k, v)]
  | (k2, v2) :: rest, k, v =>
      if k2 = k then (k2, v) :: rest else (k2, v2) :: dictSet rest k v

/-- The `name` dict of a record.  `fetch_item` always creates it with the
four base languages; later localization may overwrite them or add further
language codes (`extra`). -/
structure Names where
  en : String
  fr : String
  de : String
  ja : String
  extra : List (String × String) := []
deriving DecidableEq, Repr

/-- Assignment `name[k] = v` on the name dict. -/
def Names.set (n : Names) (k v : String) : Names :=
  if k = "en" then { n with en := v }
  else if k = "fr" then { n with fr := v }
  else if k = "de" then { n with de := v }
  else if k = "ja" then { n with ja := v }
  else { n with extra := dictSet n.extra k v }

/-- Lookup `name.get(k)` on the name dict. -/
def Names.get (n : Names) (k : String) : Option String :=
  if k = "en" then some n.en
  else if k = "fr" then some n.fr
  else if k = "de" then some n.de
  else if k = "ja" then some n.ja
  else dictGet n.extra k

/-- One normalized item record (`food` / `food_hq` in `fetch_item`).
The six stat fields are `Option` because the Python dicts simply omit keys
whose attribute is absent from the payload. -/
structure ItemRecord where
  name : Names
  hq : Bool
  ilvl : Nat
  craftsmanship_value : Option Int := none
  craftsmanship_percent : Option Int := none
  control_value : Option Int := none
  control_percent : Option Int := none
  cp_value : Option Int := none
  cp_percent : Option Int := none
deriving DecidableEq, Repr

/-- One iteration of the `for attr in data["attributes_params"]` loop of
`fetch_item`, acting on the pair (food, food_hq).  The three `if`s are
independent (not `elif`) in the source, and are kept so here. -/
def applyAttr (fp : ItemRecord × ItemRecord) (attr : Attribute) : ItemRecord × ItemRecord :=
  let fp :=
    if attr.id = 70 then
      ({ fp.1 with craftsmanship_value := some attr.value,
                   craftsmanship_percent := some attr.percent },
       { fp.2 with craftsmanship_value := some attr.value_hq,
                   craftsmanship_percent := some attr.percent_hq })
    else fp
  let fp :=
    if attr.id = 71 then
      ({ fp.1 with control_value := some attr.value,
                   control_percent := some attr.percent },
       { fp.2 with control_value := some attr.value_hq,
                   control_percent := some attr.percent_hq })
    else fp
  let fp :=
    if attr.id = 11 then
      ({ fp.1 with cp_value := some attr.value,
                   cp_percent := some attr.percent },
       { fp.2 with cp_value := some attr.value_hq,
                   cp_percent := some attr.percent_hq })
    else fp
  fp

/-- The normalization part of `fetch_item` (everything after the payload has
been fetched): build the base `food` and `food_hq` records, run the
attribute loop, return `[food, food_hq]`. -/
def fetch_item (data : ItemPayload) : List ItemRecord :=
  let food : ItemRecord :=
    { name := ⟨data.name_en, data.name_fr, data.name_de, data.name_ja, []⟩,
      hq := false, ilvl := data.level_item }
  let food_hq : ItemRecord :=
    { name := ⟨data.name_en, data.name_fr, data.name_de, data.name_ja, []⟩,
      hq := true, ilvl := data.level_item }
  let fp := data.attributes_params.foldl applyAttr (food, food_hq)
  [fp.1, fp.2]

/-- The collection loop of `fetch_items`: `food.extend(r)` for each task
result `r`, in completion order.  `order` is the list of item payloads in
the order their fetch tasks completed. -/
def fetch_items (order : List ItemPayload) : List ItemRecord :=
  (order.map fetch_item).foldl (fun acc r => acc ++ r) []

/-! ### Sorting (`food.sort(key=lambda r: (r['ilvl'], r['name']['en'], r['hq']), reverse=True)`) -/

/-- The sort key of a record: the lexicographic triple
(ilvl, English name as a code-point list, hq), exactly Python's tuple
comparison (`False < True` for booleans, code-point order for strings). -/
def recKey (r : ItemRecord) : Lex (Nat × Lex (List Char × Bool)) :=
  toLex (r.ilvl, toLex (r.name.en.data, r.hq))

/-- Record `a` may precede `b` in the descending sort iff the key of `a` is at least the key of `b`. -/
def keyGe (a b : ItemRecord) : Bool :=
  decide (recKey b ≤ recKey a)

/-- Python `list.sort(key=..., reverse=True)`: a stable sort that puts larger keys
first. -/
def sortRecords (l : List ItemRecord) : List ItemRecord :=
  l.mergeSort keyGe

/-! ### Localization (the override loop of `fetch_all_items`) -/

/-- A per-language override table: language code ↦ (English name ↦ override
name).  `additional_languages` in the source. -/
abbrev LangTables : Type := List (String × List (String × String))

/-- Python's `x or y` for `x = names.get(english_name)`: `None` and the
empty string are falsy and fall back to `y`. -/
def pyOrStr (o : Option String) (dflt : String) : String :=
  match o with
  | some v => if v = "" then dflt else v
  | none => dflt

/-- One iteration of the inner override loop:
`f['name'][lang] = names.get(f['name']['en']) or f['name']['en']`. -/
def localizeStep (f : ItemRecord) (entry : String × List (String × String)) : ItemRecord :=
  let names := entry.2
  let english_name := f.name.en
  { f with name := f.name.set entry.1 (pyOrStr (dictGet names english_name) english_name) }

/-- The inner loop of `fetch_all_items` over all configured override
languages, applied to one record. -/
def localizeRecord (langs : LangTables) (f : ItemRecord) : ItemRecord :=
  langs.foldl localizeStep f

/-- The outer localization loop (`for f in food`), with the override tables
threaded through explicitly so that their final value is part of the
result: the loop only ever reads the tables. -/
def localizeAllAux (tables : LangTables) : List ItemRecord → List ItemRecord × LangTables
  | [] => ([], tables)
  | f :: fs =>
      let f2 := localizeRecord tables f
      let rest := localizeAllAux tables fs
      (f2 :: rest.1, rest.2)

/-- The post-harvest part of `fetch_all_items`: sort the harvested records
descending by key, then localize every record in place. -/
def aggregate (food : List ItemRecord) (additional_languages : LangTables) :
    List ItemRecord :=
  (localizeAllAux additional_languages (sortRecords food)).1

/-- Function `fetch_all_items` for one category, given the payloads of the category's
items in the order their fetch tasks completed: harvest the record pairs,
sort, localize. -/
def fetch_all_items (order : List ItemPayload) (additional_languages : LangTables) :
    List ItemRecord :=
  aggregate (fetch_items order) additional_languages

/-! ## Proofs -/

/-- Permit-accounting invariant of the semaphore: free permits plus held
permits always equal the capacity, and no task holds two permits at once. -/
lemma semReach_invariant {N : Nat} {s : SemSt} (h : SemReach N s) :
    s.avail + s.holders.length = N ∧ s.holders.Nodup := by
  induction h with
  | init => simp
  | step _ hstep ih =>
      obtain ⟨hlen, hnodup⟩ := ih
      cases hstep with
      | acquire t ha ht =>
          refine ⟨?_, by simp [hnodup, ht]⟩
          simp only [List.length_cons]
          omega
      | release t ht =>
          refine ⟨?_, hnodup.erase t⟩
          have h1 : 0 < List.length _ := List.length_pos_of_mem ht
          have h2 := List.length_erase_of_mem ht
          simp only [h2]
          omega

/-- C1: in every run with concurrency cap `N`, at every instant (i.e. in
every reachable state of the shared semaphore) at most `N` fetch tasks hold
a permit, across both the page-enumeration and the detail-fetch phase, which
share the one `FETCH_SEMAPHORE` instance. -/
theorem semaphore_holders_le_cap {N : Nat} {s : SemSt} (h : SemReach N s) :
    s.holders.length ≤ N := by
  have := (semReach_invariant h).1
  omega

/-- Witness for `semaphore_holders_le_cap`: with capacity 2, the state after
task 5 acquires a permit is reachable and holds at most 2 permits. -/
theorem semaphore_holders_le_cap_witness : (SemSt.mk 1 [5]).holders.length ≤ 2 :=
  semaphore_holders_le_cap
    (SemReach.step SemReach.init (SemStep.acquire ⟨2, []⟩ 5 (by decide) (by simp)))

/-- The retry loop of `fetch_page`, started at attempt `k`: if the first
successful attempt at or after `k` is attempt `n`, the loop returns that
attempt's parse, and after every attempt (failed ones included) the
semaphore's available permits are back at their pre-call value. -/
lemma fetch_page_run_spec {α : Type} (tryFetch : Nat → Option α) (avail : Nat)
    (havail : 1 ≤ avail) (n : Nat) (d : α) (hn : tryFetch n = some d)
    (hfirst : ∀ j, j < n → tryFetch j = none) :
    ∀ fuel k, k ≤ n → n < k + fuel →
      (fetch_page_run tryFetch avail fuel k).1 = some d ∧
        ∀ x ∈ (fetch_page_run tryFetch avail fuel k).2, x = avail := by
  intro fuel
  induction fuel with
  | zero => intro k hk hlt; omega
  | succ fuel ih =>
      intro k hk hlt
      by_cases hkn : k = n
      · subst hkn
        constructor
        · simp [fetch_page_run, hn]
        · intro x hx
          simp [fetch_page_run, hn] at hx
          omega
      · have hklt : k < n := lt_of_le_of_ne hk hkn
        have hnone := hfirst k hklt
        have ihk := ih (k + 1) (by omega) (by omega)
        simp only [fetch_page_run, hnone]
        refine ⟨ihk.1, ?_⟩
        intro x hx
        simp only [List.mem_cons] at hx
        rcases hx with hx | hx
        · omega
        · exact ihk.2 x hx

/-- C2: if an attempt of the resilient fetcher raises during the network
call or the parse, its permit is released and the whole attempt is retried
from scratch, so that (with enough fuel, and at least one permit free) the
fetch returns the first successful parse, and after each failed attempt the
limiter's available permits equal their pre-call value. -/
theorem fetch_page_retries_until_first_success {α : Type}
    (tryFetch : Nat → Option α) (avail n fuel : Nat) (d : α)
    (havail : 1 ≤ avail) (hn : tryFetch n = some d)
    (hfirst : ∀ j, j < n → tryFetch j = none) (hfuel : n < fuel) :
    (fetch_page_run tryFetch avail fuel 0).1 = some d ∧
      ∀ x ∈ (fetch_page_run tryFetch avail fuel 0).2, x = avail :=
  fetch_page_run_spec tryFetch avail havail n d hn hfirst fuel 0 (Nat.zero_le n)
    (by omega)

/-- Witness for `fetch_page_retries_until_first_success`: a fetch that fails
twice and succeeds on the third attempt returns that third parse, with the
permit count restored to 4 after every attempt. -/
theorem fetch_page_retries_until_first_success_witness :
    (fetch_page_run (fun k => if k = 2 then some 42 else none) 4 3 0).1 = some 42 ∧
      ∀ x ∈ (fetch_page_run (fun k => if k = 2 then some 42 else none) 4 3 0).2, x = 4 :=
  fetch_page_retries_until_first_success (fun k => if k = 2 then some 42 else none)
    4 2 3 42 (by decide) rfl (fun j hj => by interval_cases j <;> rfl) (by decide)

/-- C8: against a target whose every attempt raises, the retry loop of the
resilient fetcher never terminates — no amount of fuel makes it produce a
result (and hence no error is ever surfaced to the caller). -/
theorem fetch_page_diverges_on_permanent_failure {α : Type}
    (tryFetch : Nat → Option α) (h : ∀ j, tryFetch j = none) (avail : Nat) :
    ∀ fuel k, (fetch_page_run tryFetch avail fuel k).1 = none := by
  intro fuel
  induction fuel with
  | zero => intro k; rfl
  | succ fuel ih =>
      intro k
      simp only [fetch_page_run, h k]
      exact ih (k + 1)

/-- Witness for `fetch_page_diverges_on_permanent_failure`: the
always-failing fetch still has no result after 7 attempts. -/
theorem fetch_page_diverges_on_permanent_failure_witness :
    (fetch_page_run (fun _ => (none : Option Nat)) 4 7 0).1 = none :=
  fetch_page_diverges_on_permanent_failure (fun _ => (none : Option Nat))
    (fun _ => rfl) 4 7 0

/-- The page loop, started at page `s ≤ P`, where `P` is the first page at
which the loop's stop condition holds: it returns the URLs of pages
`s, s+1, …, P` concatenated in page order. -/
lemma fetchItemUrlsAux_spec (oracle : Nat → ListingPage) (P : Nat)
    (hstop : (oracle P).total ≤ P)
    (hcont : ∀ p, 1 ≤ p → p < P → p < (oracle p).total) :
    ∀ fuel s, 1 ≤ s → s ≤ P → P - s < fuel →
      fetchItemUrlsAux oracle fuel s =
        some (((List.range' s (P - s + 1)).map fun p => (oracle p).urls).flatten) := by
  intro fuel
  induction fuel with
  | zero => intro s _ _ h; omega
  | succ fuel ih =>
      intro s hs1 hsP hfuel
      by_cases hsp : s = P
      · subst hsp
        have hlt : ¬ (s < (oracle s).total) := by omega
        simp [fetchItemUrlsAux, hlt, List.range'_succ]
      · have hsP2 : s < P := lt_of_le_of_ne hsP hsp
        have hc := hcont s hs1 hsP2
        have ihs := ih (s + 1) (by omega) (by omega) (by omega)
        have harith : P - s + 1 = (P - (s + 1) + 1) + 1 := by omega
        simp only [fetchItemUrlsAux, if_pos hc, ihs, harith, List.range'_succ,
          List.map_cons, List.flatten_cons]

/-- C6: for every category, the enumerator fetches pages sequentially from
page 1, halts exactly at the first page `P` whose reported total satisfies
`total ≤ P` (every earlier page reporting `page < total`), and returns the
concatenation of pages 1..P's URL lists in page order; its length is the sum
of the per-page URL counts. -/
theorem fetch_item_urls_concat (oracle : Nat → ListingPage) (P fuel : Nat)
    (hP : 1 ≤ P) (hstop : (oracle P).total ≤ P)
    (hcont : ∀ p, 1 ≤ p → p < P → p < (oracle p).total) (hfuel : P ≤ fuel) :
    fetch_item_urls oracle fuel =
        some (((List.range' 1 P).map fun p => (oracle p).urls).flatten) ∧
      (((List.range' 1 P).map fun p => (oracle p).urls).flatten).length =
        ((List.range' 1 P).map fun p => (oracle p).urls.length).sum := by
  constructor
  · have h := fetchItemUrlsAux_spec oracle P hstop hcont fuel 1 le_rfl hP (by omega)
    have harith : P - 1 + 1 = P := by omega
    rw [harith] at h
    exact h
  · rw [List.length_flatten, List.map_map]
    rfl

/-- Witness for `fetch_item_urls_concat`: one page reporting total 1 with
two URLs; enumeration stops after page 1 and returns exactly those URLs. -/
theorem fetch_item_urls_concat_witness :
    fetch_item_urls (fun p => if p = 1 then ⟨["u1", "u2"], 1⟩ else ⟨[], 1⟩) 1 =
        some (((List.range' 1 1).map
          fun p => ((fun p => if p = 1 then ListingPage.mk ["u1", "u2"] 1 else ⟨[], 1⟩) p).urls).flatten) ∧
      (((List.range' 1 1).map
          fun p => ((fun p => if p = 1 then ListingPage.mk ["u1", "u2"] 1 else ⟨[], 1⟩) p).urls).flatten).length =
        ((List.range' 1 1).map
          fun p => ((fun p => if p = 1 then ListingPage.mk ["u1", "u2"] 1 else ⟨[], 1⟩) p).urls.length).sum :=
  fetch_item_urls_concat (fun p => if p = 1 then ⟨["u1", "u2"], 1⟩ else ⟨[], 1⟩) 1 1
    le_rfl (by decide) (fun p hp hlt => by omega) le_rfl

/-- One attribute-loop iteration never touches the name, quality flag or
item level of either record. -/
lemma applyAttr_base (fp : ItemRecord × ItemRecord) (a : Attribute) :
    (applyAttr fp a).1.name = fp.1.name ∧ (applyAttr fp a).1.hq = fp.1.hq ∧
      (applyAttr fp a).1.ilvl = fp.1.ilvl ∧ (applyAttr fp a).2.name = fp.2.name ∧
      (applyAttr fp a).2.hq = fp.2.hq ∧ (applyAttr fp a).2.ilvl = fp.2.ilvl := by
  simp only [applyAttr]
  split_ifs <;> simp

/-- The whole attribute loop never touches the name, quality flag or item
level of either record. -/
lemma foldl_applyAttr_base (l : List Attribute) :
    ∀ fp : ItemRecord × ItemRecord,
      (l.foldl applyAttr fp).1.name = fp.1.name ∧ (l.foldl applyAttr fp).1.hq = fp.1.hq ∧
        (l.foldl applyAttr fp).1.ilvl = fp.1.ilvl ∧
        (l.foldl applyAttr fp).2.name = fp.2.name ∧
        (l.foldl applyAttr fp).2.hq = fp.2.hq ∧
        (l.foldl applyAttr fp).2.ilvl = fp.2.ilvl := by
  induction l with
  | nil => intro fp; simp
  | cons a rest ih =>
      intro fp
      have h1 := applyAttr_base fp a
      have h2 := ih (applyAttr fp a)
      simp only [List.foldl_cons]
      obtain ⟨e1, e2, e3, e4, e5, e6⟩ := h1
      obtain ⟨f1, f2, f3, f4, f5, f6⟩ := h2
      exact ⟨f1.trans e1, f2.trans e2, f3.trans e3, f4.trans e4, f5.trans e5, f6.trans e6⟩

/-- Shape of `fetch_item`'s output: exactly the pair `[food, food_hq]`, with
`hq = false` then `hq = true`, sharing the payload's names and item level. -/
lemma fetch_item_shape (d : ItemPayload) :
    ∃ f fh, fetch_item d = [f, fh] ∧ f.hq = false ∧ fh.hq = true ∧
      f.name = fh.name ∧ f.ilvl = fh.ilvl ∧
      f.name = ⟨d.name_en, d.name_fr, d.name_de, d.name_ja, []⟩ ∧
      f.ilvl = d.level_item := by
  refine ⟨_, _, rfl, ?_⟩
  have h := foldl_applyAttr_base d.attributes_params
    (⟨⟨d.name_en, d.name_fr, d.name_de, d.name_ja, []⟩, false, d.level_item,
        none, none, none, none, none, none⟩,
     ⟨⟨d.name_en, d.name_fr, d.name_de, d.name_ja, []⟩, true, d.level_item,
        none, none, none, none, none, none⟩)
  obtain ⟨f1, f2, f3, f4, f5, f6⟩ := h
  exact ⟨f2, f5, f1.trans f4.symm, f3.trans f6.symm, f1, f3⟩

/-- C4: every harvested item payload produces exactly two records, one with
`hq = false` immediately followed by one with `hq = true`, with identical
name mappings and identical item level (only the optional stat fields may
differ). -/
theorem fetch_item_two_records (d : ItemPayload) :
    ∃ f fh, fetch_item d = [f, fh] ∧ f.hq = false ∧ fh.hq = true ∧
      f.name = fh.name ∧ f.ilvl = fh.ilvl := by
  obtain ⟨f, fh, h1, h2, h3, h4, h5, _, _⟩ := fetch_item_shape d
  exact ⟨f, fh, h1, h2, h3, h4, h5⟩

/-- The last entry with a given attribute id in an attribute list (the
Python loop lets later entries overwrite earlier ones). -/
def lastWith (i : Nat) : List Attribute → Option Attribute
  | [] => none
  | a :: rest =>
      match lastWith i rest with
      | some b => some b
      | none => if a.id = i then some a else none

/-- Effect of one attribute-loop iteration on the craftsmanship fields. -/
lemma applyAttr_craft (fp : ItemRecord × ItemRecord) (a : Attribute) :
    (applyAttr fp a).1.craftsmanship_value
        = (if a.id = 70 then some a.value else fp.1.craftsmanship_value) ∧
      (applyAttr fp a).1.craftsmanship_percent
        = (if a.id = 70 then some a.percent else fp.1.craftsmanship_percent) ∧
      (applyAttr fp a).2.craftsmanship_value
        = (if a.id = 70 then some a.value_hq else fp.2.craftsmanship_value) ∧
      (applyAttr fp a).2.craftsmanship_percent
        = (if a.id = 70 then some a.percent_hq else fp.2.craftsmanship_percent) := by
  simp only [applyAttr]
  split_ifs <;> simp_all

/-- Effect of one attribute-loop iteration on the control fields. -/
lemma applyAttr_control (fp : ItemRecord × ItemRecord) (a : Attribute) :
    (applyAttr fp a).1.control_value
        = (if a.id = 71 then some a.value else fp.1.control_value) ∧
      (applyAttr fp a).1.control_percent
        = (if a.id = 71 then some a.percent else fp.1.control_percent) ∧
      (applyAttr fp a).2.control_value
        = (if a.id = 71 then some a.value_hq else fp.2.control_value) ∧
      (applyAttr fp a).2.control_percent
        = (if a.id = 71 then some a.percent_hq else fp.2.control_percent) := by
  simp only [applyAttr]
  split_ifs <;> simp_all

/-- Effect of one attribute-loop iteration on the cp fields. -/
lemma applyAttr_cp (fp : ItemRecord × ItemRecord) (a : Attribute) :
    (applyAttr fp a).1.cp_value
        = (if a.id = 11 then some a.value else fp.1.cp_value) ∧
      (applyAttr fp a).1.cp_percent
        = (if a.id = 11 then some a.percent else fp.1.cp_percent) ∧
      (applyAttr fp a).2.cp_value
        = (if a.id = 11 then some a.value_hq else fp.2.cp_value) ∧
      (applyAttr fp a).2.cp_percent
        = (if a.id = 11 then some a.percent_hq else fp.2.cp_percent) := by
  simp only [applyAttr]
  split_ifs <;> simp_all

/-- One stat field of the attribute-loop result: the value extracted from
the last entry with the field's id, or the initial value if no entry has
that id. -/
lemma foldl_applyAttr_field (i : Nat) (g : ItemRecord × ItemRecord → Option Int)
    (pick : Attribute → Option Int)
    (hstep : ∀ fp a, g (applyAttr fp a) = if a.id = i then pick a else g fp) :
    ∀ (l : List Attribute) (fp : ItemRecord × ItemRecord),
      g (l.foldl applyAttr fp)
        = (match lastWith i l with
           | some a => pick a
           | none => g fp) := by
  intro l
  induction l with
  | nil => intro fp; simp [lastWith]
  | cons a rest ih =>
      intro fp
      rw [List.foldl_cons, ih]
      cases hrest : lastWith i rest with
      | some b => simp [lastWith, hrest]
      | none =>
          simp only [lastWith, hrest, hstep]
          by_cases ha : a.id = i <;> simp [ha]

/-- A list with no entry of id `i` has no last entry of id `i`. -/
lemma lastWith_eq_none (i : Nat) :
    ∀ l : List Attribute, l.filter (fun x => x.id = i) = [] → lastWith i l = none := by
  intro l
  induction l with
  | nil => intro _; rfl
  | cons a rest ih =>
      intro h
      rw [List.filter_cons] at h
      by_cases ha : a.id = i
      · rw [if_pos (by simp [ha])] at h
        simp at h
      · rw [if_neg (by simp [ha])] at h
        have := ih h
        simp [lastWith, this, ha]

/-- If exactly one entry of id `i` occurs, it is the last such entry. -/
lemma lastWith_eq_of_filter_singleton (i : Nat) :
    ∀ (l : List Attribute) (a : Attribute),
      l.filter (fun x => x.id = i) = [a] → lastWith i l = some a := by
  intro l
  induction l with
  | nil => intro a h; simp at h
  | cons x rest ih =>
      intro a h
      rw [List.filter_cons] at h
      by_cases hx : x.id = i
      · rw [if_pos (by simp [hx])] at h
        obtain ⟨h1, h2⟩ := List.cons_eq_cons.mp h
        have hnone := lastWith_eq_none i rest h2
        subst h1
        simp [lastWith, hnone, hx]
      · rw [if_neg (by simp [hx])] at h
        have := ih a h
        simp [lastWith, this]

/-- The initial (food, food_hq) pair of `fetch_item`, before the attribute
loop runs. -/
def initPair (d : ItemPayload) : ItemRecord × ItemRecord :=
  (⟨⟨d.name_en, d.name_fr, d.name_de, d.name_ja, []⟩, false, d.level_item,
      none, none, none, none, none, none⟩,
   ⟨⟨d.name_en, d.name_fr, d.name_de, d.name_ja, []⟩, true, d.level_item,
      none, none, none, none, none, none⟩)

lemma fetch_item_eq (d : ItemPayload) :
    fetch_item d = [(d.attributes_params.foldl applyAttr (initPair d)).1,
                    (d.attributes_params.foldl applyAttr (initPair d)).2] := rfl

/-- C5: for each attribute id among 70 (craftsmanship), 71 (control) and
11 (cp), if the payload's attribute list contains exactly one entry of that
id, the hq=false record's `_value`/`_percent` fields equal that entry's
`value`/`percent` and the hq=true record's equal its
`value_hq`/`percent_hq`; if there is no entry of that id, all four fields
are omitted (`none`). -/
theorem fetch_item_attr_extraction (d : ItemPayload) (f fh : ItemRecord)
    (hfi : fetch_item d = [f, fh]) :
    ((∀ a, d.attributes_params.filter (fun x => x.id = 70) = [a] →
        f.craftsmanship_value = some a.value ∧ f.craftsmanship_percent = some a.percent ∧
        fh.craftsmanship_value = some a.value_hq ∧ fh.craftsmanship_percent = some a.percent_hq) ∧
      (d.attributes_params.filter (fun x => x.id = 70) = [] →
        f.craftsmanship_value = none ∧ f.craftsmanship_percent = none ∧
        fh.craftsmanship_value = none ∧ fh.craftsmanship_percent = none)) ∧
    ((∀ a, d.attributes_params.filter (fun x => x.id = 71) = [a] →
        f.control_value = some a.value ∧ f.control_percent = some a.percent ∧
        fh.control_value = some a.value_hq ∧ fh.control_percent = some a.percent_hq) ∧
      (d.attributes_params.filter (fun x => x.id = 71) = [] →
        f.control_value = none ∧ f.control_percent = none ∧
        fh.control_value = none ∧ fh.control_percent = none)) ∧
    ((∀ a, d.attributes_params.filter (fun x => x.id = 11) = [a] →
        f.cp_value = some a.value ∧ f.cp_percent = some a.percent ∧
        fh.cp_value = some a.value_hq ∧ fh.cp_percent = some a.percent_hq) ∧
      (d.attributes_params.filter (fun x => x.id = 11) = [] →
        f.cp_value = none ∧ f.cp_percent = none ∧
        fh.cp_value = none ∧ fh.cp_percent = none)) := by
  rw [fetch_item_eq] at hfi
  obtain ⟨h1, htail⟩ := List.cons_eq_cons.mp hfi
  obtain ⟨h2, -⟩ := List.cons_eq_cons.mp htail
  set attrs := d.attributes_params with hattrs
  have hcv : (attrs.foldl applyAttr (initPair d)).1.craftsmanship_value
      = (match lastWith 70 attrs with | some a => some a.value | none => none) :=
    foldl_applyAttr_field 70 (fun fp => fp.1.craftsmanship_value) (fun a => some a.value)
      (fun fp a => (applyAttr_craft fp a).1) attrs (initPair d)
  have hcp : (attrs.foldl applyAttr (initPair d)).1.craftsmanship_percent
      = (match lastWith 70 attrs with | some a => some a.percent | none => none) :=
    foldl_applyAttr_field 70 (fun fp => fp.1.craftsmanship_percent) (fun a => some a.percent)
      (fun fp a => (applyAttr_craft fp a).2.1) attrs (initPair d)
  have hcvh : (attrs.foldl applyAttr (initPair d)).2.craftsmanship_value
      = (match lastWith 70 attrs with | some a => some a.value_hq | none => none) :=
    foldl_applyAttr_field 70 (fun fp => fp.2.craftsmanship_value) (fun a => some a.value_hq)
      (fun fp a => (applyAttr_craft fp a).2.2.1) attrs (initPair d)
  have hcph : (attrs.foldl applyAttr (initPair d)).2.craftsmanship_percent
      = (match lastWith 70 attrs with | some a => some a.percent_hq | none => none) :=
    foldl_applyAttr_field 70 (fun fp => fp.2.craftsmanship_percent) (fun a => some a.percent_hq)
      (fun fp a => (applyAttr_craft fp a).2.2.2) attrs (initPair d)
  have hov : (attrs.foldl applyAttr (initPair d)).1.control_value
      = (match lastWith 71 attrs with | some a => some a.value | none => none) :=
    foldl_applyAttr_field 71 (fun fp => fp.1.control_value) (fun a => some a.value)
      (fun fp a => (applyAttr_control fp a).1) attrs (initPair d)
  have hop : (attrs.foldl applyAttr (initPair d)).1.control_percent
      = (match lastWith 71 attrs with | some a => some a.percent | none => none) :=
    foldl_applyAttr_field 71 (fun fp => fp.1.control_percent) (fun a => some a.percent)
      (fun fp a => (applyAttr_control fp a).2.1) attrs (initPair d)
  have hovh : (attrs.foldl applyAttr (initPair d)).2.control_value
      = (match lastWith 71 attrs with | some a => some a.value_hq | none => none) :=
    foldl_applyAttr_field 71 (fun fp => fp.2.control_value) (fun a => some a.value_hq)
      (fun fp a => (applyAttr_control fp a).2.2.1) attrs (initPair d)
  have hoph : (attrs.foldl applyAttr (initPair d)).2.control_percent
      = (match lastWith 71 attrs with | some a => some a.percent_hq | none => none) :=
    foldl_applyAttr_field 71 (fun fp => fp.2.control_percent) (fun a => some a.percent_hq)
      (fun fp a => (applyAttr_control fp a).2.2.2) attrs (initPair d)
  have hpv : (attrs.foldl applyAttr (initPair d)).1.cp_value
      = (match lastWith 11 attrs with | some a => some a.value | none => none) :=
    foldl_applyAttr_field 11 (fun fp => fp.1.cp_value) (fun a => some a.value)
      (fun fp a => (applyAttr_cp fp a).1) attrs (initPair d)
  have hpp : (attrs.foldl applyAttr (initPair d)).1.cp_percent
      = (match lastWith 11 attrs with | some a => some a.percent | none => none) :=
    foldl_applyAttr_field 11 (fun fp => fp.1.cp_percent) (fun a => some a.percent)
      (fun fp a => (applyAttr_cp fp a).2.1) attrs (initPair d)
  have hpvh : (attrs.foldl applyAttr (initPair d)).2.cp_value
      = (match lastWith 11 attrs with | some a => some a.value_hq | none => none) :=
    foldl_applyAttr_field 11 (fun fp => fp.2.cp_value) (fun a => some a.value_hq)
      (fun fp a => (applyAttr_cp fp a).2.2.1) attrs (initPair d)
  have hpph : (attrs.foldl applyAttr (initPair d)).2.cp_percent
      = (match lastWith 11 attrs with | some a => some a.percent_hq | none => none) :=
    foldl_applyAttr_field 11 (fun fp => fp.2.cp_percent) (fun a => some a.percent_hq)
      (fun fp a => (applyAttr_cp fp a).2.2.2) attrs (initPair d)
  rw [← h1, ← h2]
  refine ⟨⟨?_, ?_⟩, ⟨?_, ?_⟩, ⟨?_, ?_⟩⟩
  · intro a hflt
    rw [lastWith_eq_of_filter_singleton 70 attrs a hflt] at hcv hcp hcvh hcph
    exact ⟨hcv, hcp, hcvh, hcph⟩
  · intro hflt
    rw [lastWith_eq_none 70 attrs hflt] at hcv hcp hcvh hcph
    exact ⟨hcv, hcp, hcvh, hcph⟩
  · intro a hflt
    rw [lastWith_eq_of_filter_singleton 71 attrs a hflt] at hov hop hovh hoph
    exact ⟨hov, hop, hovh, hoph⟩
  · intro hflt
    rw [lastWith_eq_none 71 attrs hflt] at hov hop hovh hoph
    exact ⟨hov, hop, hovh, hoph⟩
  · intro a hflt
    rw [lastWith_eq_of_filter_singleton 11 attrs a hflt] at hpv hpp hpvh hpph
    exact ⟨hpv, hpp, hpvh, hpph⟩
  · intro hflt
    rw [lastWith_eq_none 11 attrs hflt] at hpv hpp hpvh hpph
    exact ⟨hpv, hpp, hpvh, hpph⟩

/-- Witness for `fetch_item_attr_extraction`: a payload with one entry each
of ids 70 and 71 and none of id 11 yields exactly those craftsmanship and
control stats in both records, and no cp fields. -/
theorem fetch_item_attr_extraction_witness :
    let d : ItemPayload := ⟨"A", "A", "A", "A", 10, [⟨70, 1, 2, 3, 4⟩, ⟨71, 5, 6, 7, 8⟩]⟩
    let f := (fetch_item d).getD 0 (initPair d).1
    let fh := (fetch_item d).getD 1 (initPair d).2
    f.craftsmanship_value = some 1 ∧ f.craftsmanship_percent = some 2 ∧
      fh.craftsmanship_value = some 3 ∧ fh.craftsmanship_percent = some 4 ∧
      f.control_value = some 5 ∧ f.control_percent = some 6 ∧
      fh.control_value = some 7 ∧ fh.control_percent = some 8 ∧
      f.cp_value = none ∧ f.cp_percent = none ∧ fh.cp_value = none ∧ fh.cp_percent = none := by
  have h := fetch_item_attr_extraction ⟨"A", "A", "A", "A", 10, [⟨70, 1, 2, 3, 4⟩, ⟨71, 5, 6, 7, 8⟩]⟩
    ((fetch_item ⟨"A", "A", "A", "A", 10, [⟨70, 1, 2, 3, 4⟩, ⟨71, 5, 6, 7, 8⟩]⟩).getD 0
      (initPair ⟨"A", "A", "A", "A", 10, [⟨70, 1, 2, 3, 4⟩, ⟨71, 5, 6, 7, 8⟩]⟩).1)
    ((fetch_item ⟨"A", "A", "A", "A", 10, [⟨70, 1, 2, 3, 4⟩, ⟨71, 5, 6, 7, 8⟩]⟩).getD 1
      (initPair ⟨"A", "A", "A", "A", 10, [⟨70, 1, 2, 3, 4⟩, ⟨71, 5, 6, 7, 8⟩]⟩).2)
    (by decide)
  obtain ⟨⟨h70, -⟩, ⟨h71, -⟩, ⟨-, h11⟩⟩ := h
  obtain ⟨c1, c2, c3, c4⟩ := h70 ⟨70, 1, 2, 3, 4⟩ (by decide)
  obtain ⟨o1, o2, o3, o4⟩ := h71 ⟨71, 5, 6, 7, 8⟩ (by decide)
  obtain ⟨p1, p2, p3, p4⟩ := h11 (by decide)
  exact ⟨c1, c2, c3, c4, o1, o2, o3, o4, p1, p2, p3, p4⟩

/-- The `food.extend(r)` loop concatenates the task results in order. -/
lemma foldl_append_eq_flatten {α : Type} (ls : List (List α)) :
    ∀ acc : List α, ls.foldl (fun a r => a ++ r) acc = acc ++ ls.flatten := by
  induction ls with
  | nil => intro acc; simp
  | cons l rest ih =>
      intro acc
      simp only [List.foldl_cons, List.flatten_cons, ih, List.append_assoc]

lemma fetch_items_eq_flatten (order : List ItemPayload) :
    fetch_items order = (order.map fetch_item).flatten := by
  simp [fetch_items, foldl_append_eq_flatten]

/-- C10: however the concurrent detail fetches complete (`order` is their
completion order), the collected list has each item's two records adjacent:
at positions 2i and 2i+1 sit exactly that item's hq=false and hq=true
records, with identical names and item level. -/
theorem fetch_items_pairs_adjacent (order : List ItemPayload) :
    (fetch_items order).length = 2 * order.length ∧
      ∀ i : Fin order.length, ∃ f fh,
        fetch_item (order.get i) = [f, fh] ∧
        (fetch_items order)[2 * i.val]? = some f ∧
        (fetch_items order)[2 * i.val + 1]? = some fh ∧
        f.hq = false ∧ fh.hq = true ∧ f.name = fh.name ∧ f.ilvl = fh.ilvl := by
  rw [fetch_items_eq_flatten]
  induction order with
  | nil => exact ⟨rfl, fun i => absurd i.isLt (by simp)⟩
  | cons p rest ih =>
      obtain ⟨f0, fh0, heq, hq0, hq1, hnm, hil⟩ := fetch_item_two_records p
      obtain ⟨ihlen, ihget⟩ := ih
      constructor
      · simp only [List.map_cons, List.flatten_cons, List.length_append, ihlen, heq,
          List.length_cons, List.length_nil]
        omega
      · intro i
        rcases i with ⟨iv, hiv⟩
        simp only [List.map_cons, List.flatten_cons]
        cases iv with
        | zero =>
            refine ⟨f0, fh0, heq, ?_, ?_, hq0, hq1, hnm, hil⟩
            · rw [heq]; simp
            · rw [heq]; simp
        | succ j =>
            have hj : j < rest.length := by simpa using hiv
            obtain ⟨f, fh, ha, hb, hc, hd, he, hf2, hg⟩ := ihget ⟨j, hj⟩
            refine ⟨f, fh, ha, ?_, ?_, hd, he, hf2, hg⟩
            · rw [heq]
              have h2 : 2 * (j + 1) = ([f0, fh0] : List ItemRecord).length + 2 * j := by
                simp only [List.length_cons, List.length_nil]
                omega
              rw [h2, List.getElem?_append_right (by omega)]
              simpa using hb
            · rw [heq]
              have h2 : 2 * (j + 1) + 1 = ([f0, fh0] : List ItemRecord).length + (2 * j + 1) := by
                simp only [List.length_cons, List.length_nil]
                omega
              rw [h2, List.getElem?_append_right (by omega)]
              simpa using hc

/-- The descending key comparison is transitive. -/
lemma keyGe_trans (a b c : ItemRecord) (h1 : keyGe a b = true) (h2 : keyGe b c = true) :
    keyGe a c = true := by
  simp only [keyGe, decide_eq_true_eq] at *
  exact le_trans h2 h1

/-- The descending key comparison is total. -/
lemma keyGe_total (a b : ItemRecord) : (keyGe a b || keyGe b a) = true := by
  simp only [keyGe, Bool.or_eq_true, decide_eq_true_eq]
  exact le_total (recKey b) (recKey a)

/-- Setting a name for a language other than `"en"` leaves the English name
unchanged. -/
lemma Names.en_set_ne (n : Names) (k v : String) (h : k ≠ "en") : (n.set k v).en = n.en := by
  simp only [Names.set]
  split_ifs <;> simp_all

/-- One localization step never touches `hq`, `ilvl`, and (when the language
is not `"en"`) the English name. -/
lemma localizeStep_base (f : ItemRecord) (e : String × List (String × String)) :
    (localizeStep f e).hq = f.hq ∧ (localizeStep f e).ilvl = f.ilvl ∧
      (e.1 ≠ "en" → (localizeStep f e).name.en = f.name.en) := by
  refine ⟨rfl, rfl, fun h => ?_⟩
  exact Names.en_set_ne f.name e.1 _ h

/-- Localizing a record never touches `hq`, `ilvl`, and (when `"en"` is not
among the configured override languages) the English name. -/
lemma localizeRecord_base (langs : LangTables) :
    ∀ f : ItemRecord,
      (localizeRecord langs f).hq = f.hq ∧ (localizeRecord langs f).ilvl = f.ilvl ∧
        ("en" ∉ langs.map Prod.fst → (localizeRecord langs f).name.en = f.name.en) := by
  induction langs with
  | nil => intro f; exact ⟨rfl, rfl, fun _ => rfl⟩
  | cons e rest ih =>
      intro f
      obtain ⟨s1, s2, s3⟩ := localizeStep_base f e
      obtain ⟨r1, r2, r3⟩ := ih (localizeStep f e)
      refine ⟨r1.trans s1, r2.trans s2, fun h => ?_⟩
      simp only [List.map_cons, List.mem_cons] at h
      push_neg at h
      exact (r3 h.2).trans (s3 (fun he => h.1 he.symm))

/-- Localization does not change a record's sort key when `"en"` is not a
configured override language. -/
lemma recKey_localizeRecord (langs : LangTables) (f : ItemRecord)
    (hen : "en" ∉ langs.map Prod.fst) :
    recKey (localizeRecord langs f) = recKey f := by
  obtain ⟨h1, h2, h3⟩ := localizeRecord_base langs f
  simp only [recKey, h1, h2, h3 hen]

/-- The record component of the localization loop is a map of
`localizeRecord` over the records. -/
lemma localizeAllAux_fst (tables : LangTables) :
    ∀ records : List ItemRecord,
      (localizeAllAux tables records).1 = records.map (localizeRecord tables) := by
  intro records
  induction records with
  | nil => rfl
  | cons f fs ih => simp [localizeAllAux, ih]

/-- C3: the finalized per-category list is sorted descending by the
lexicographic key (ilvl, English name, hq): every adjacent pair (a, b)
satisfies key(b) ≤ key(a), with hq=true before hq=false on otherwise equal
keys (Bool order: false < true).  `"en"` itself is not an override language
(override tables translate away from English), so localization does not
perturb the keys. -/
theorem aggregate_sorted_descending (records : List ItemRecord) (langs : LangTables)
    (_hne : records ≠ []) (hen : "en" ∉ langs.map Prod.fst) :
    List.Chain' (fun a b => recKey b ≤ recKey a) (aggregate records langs) := by
  have hpair : List.Pairwise (fun a b => keyGe a b = true) (sortRecords records) :=
    List.sorted_mergeSort keyGe_trans keyGe_total records
  have : aggregate records langs = (sortRecords records).map (localizeRecord langs) := by
    simp [aggregate, localizeAllAux_fst]
  rw [this]
  apply List.Pairwise.chain'
  rw [List.pairwise_map]
  refine hpair.imp ?_
  intro a b hab
  rw [recKey_localizeRecord langs a hen, recKey_localizeRecord langs b hen]
  simpa [keyGe] using hab

/-- Witness for `aggregate_sorted_descending`: two records with equal keys
except for ilvl come out in descending ilvl order. -/
theorem aggregate_sorted_descending_witness :
    List.Chain' (fun a b => recKey b ≤ recKey a)
      (aggregate
        [⟨⟨"A", "A", "A", "A", []⟩, false, 10, none, none, none, none, none, none⟩,
         ⟨⟨"B", "B", "B", "B", []⟩, true, 55, none, none, none, none, none, none⟩] []) :=
  aggregate_sorted_descending
    [⟨⟨"A", "A", "A", "A", []⟩, false, 10, none, none, none, none, none, none⟩,
     ⟨⟨"B", "B", "B", "B", []⟩, true, 55, none, none, none, none, none, none⟩] []
    (by simp) (by simp)

/-- Dict update then lookup of the same key yields the new value. -/
lemma dictGet_dictSet_self (k v : String) :
    ∀ d : List (String × String), dictGet (dictSet d k v) k = some v := by
  intro d
  induction d with
  | nil => simp [dictSet, dictGet]
  | cons e rest ih =>
      rcases e with ⟨k2, v2⟩
      by_cases h : k2 = k
      · simp [dictSet, dictGet, h]
      · simp [dictSet, dictGet, h, ih]

/-- Dict update then lookup of a different key is unchanged. -/
lemma dictGet_dictSet_ne (k v k2 : String) (h : k ≠ k2) :
    ∀ d : List (String × String), dictGet (dictSet d k v) k2 = dictGet d k2 := by
  intro d
  induction d with
  | nil => simp [dictSet, dictGet, h]
  | cons e rest ih =>
      rcases e with ⟨k3, v3⟩
      by_cases h3 : k3 = k
      · subst h3
        simp [dictSet, dictGet, h]
      · simp [dictSet, dictGet, h3, ih]

/-- Name-dict update then lookup of the same key yields the new value. -/
lemma Names.get_set_self (n : Names) (k v : String) : (n.set k v).get k = some v := by
  simp only [Names.set, Names.get]
  split_ifs <;> simp_all [dictGet_dictSet_self]

/-- Name-dict update then lookup of a different key is unchanged. -/
lemma Names.get_set_ne (n : Names) (k v k2 : String) (h : k ≠ k2) :
    (n.set k v).get k2 = n.get k2 := by
  simp only [Names.set, Names.get]
  split_ifs <;> simp_all [dictGet_dictSet_ne k v k2 h]

/-- Localizing over languages that do not include `lang` leaves the record's
name for `lang` unchanged. -/
lemma localizeRecord_get_notin (lang : String) :
    ∀ (langs : LangTables) (f : ItemRecord), lang ∉ langs.map Prod.fst →
      (localizeRecord langs f).name.get lang = f.name.get lang := by
  intro langs
  induction langs with
  | nil => intro f _; rfl
  | cons e rest ih =>
      intro f h
      simp only [List.map_cons, List.mem_cons] at h
      push_neg at h
      have step : (localizeStep f e).name.get lang = f.name.get lang :=
        Names.get_set_ne f.name e.1 _ lang (fun he => h.1 he.symm)
      exact (ih (localizeStep f e) h.2).trans step

/-- C7 (amended): provided the override languages are distinct and do not
include `"en"` itself, each record's final name for an override language
equals the override value for its English name when that value is present
*and non-empty*, else falls back to the English name: the source merges via
Python `or`, under which an empty-string override behaves like an absent
key. -/
theorem localizeRecord_override (langs : LangTables) (lang : String)
    (tbl : List (String × String)) (f : ItemRecord)
    (hnodup : (langs.map Prod.fst).Nodup) (hen : "en" ∉ langs.map Prod.fst)
    (hmem : (lang, tbl) ∈ langs) :
    (localizeRecord langs f).name.get lang =
      some (pyOrStr (dictGet tbl f.name.en) f.name.en) := by
  induction langs generalizing f with
  | nil => simp at hmem
  | cons e rest ih =>
      simp only [List.map_cons, List.nodup_cons] at hnodup
      simp only [List.map_cons, List.mem_cons] at hen
      push_neg at hen
      rcases List.mem_cons.mp hmem with hhead | htail
      · subst hhead
        have hnotin : lang ∉ rest.map Prod.fst := hnodup.1
        have step : (localizeStep f (lang, tbl)).name.get lang =
            some (pyOrStr (dictGet tbl f.name.en) f.name.en) :=
          Names.get_set_self f.name lang _
        calc (localizeRecord ((lang, tbl) :: rest) f).name.get lang
            = (localizeRecord rest (localizeStep f (lang, tbl))).name.get lang := rfl
          _ = (localizeStep f (lang, tbl)).name.get lang :=
              localizeRecord_get_notin lang rest _ hnotin
          _ = some (pyOrStr (dictGet tbl f.name.en) f.name.en) := step
      · have hne : e.1 ≠ "en" := fun h => hen.1 h.symm
        have henf : (localizeStep f e).name.en = f.name.en :=
          Names.en_set_ne f.name e.1 _ hne
        have hrec := ih (localizeStep f e) hnodup.2 hen.2 htail
        rw [henf] at hrec
        exact hrec

/-- Witness for `localizeRecord_override`: a French override table mapping
"Apple" to "Pomme" localizes a record named "Apple" to "Pomme". -/
theorem localizeRecord_override_witness :
    (localizeRecord [("fr", [("Apple", "Pomme")])]
        ⟨⟨"Apple", "Apple", "Apple", "Apple", []⟩, false, 10,
          none, none, none, none, none, none⟩).name.get "fr" =
      some (pyOrStr (dictGet [("Apple", "Pomme")] "Apple") "Apple") :=
  localizeRecord_override [("fr", [("Apple", "Pomme")])] "fr" [("Apple", "Pomme")]
    ⟨⟨"Apple", "Apple", "Apple", "Apple", []⟩, false, 10,
      none, none, none, none, none, none⟩
    (by simp) (by simp) (by simp)

/-- Counterexample to C7 as stated: the English name "A" *is* present as a
key of the override table, with override value `""`, yet the localized name
for that language is `"A"`, not the table's value `""` — Python's
`names.get(x) or x` discards falsy (empty) override values. -/
theorem localizeRecord_override_counterexample :
    dictGet [("A", "")] "A" = some "" ∧
      (localizeRecord [("fr", [("A", "")])]
          ⟨⟨"A", "A", "A", "A", []⟩, false, 10,
            none, none, none, none, none, none⟩).name.get "fr" ≠ some "" := by
  decide

/-- C9: the localization pass never modifies the override tables — the
table component it threads through comes back exactly as loaded. -/
theorem localizeAllAux_preserves_tables (tables : LangTables) (records : List ItemRecord) :
    (localizeAllAux tables records).2 = tables := by
  induction records with
  | nil => rfl
  | cons f fs ih => simpa [localizeAllAux] using ih

end Buffs
